import Mathlib

/-!
Verification of the Harpoon trade-cache and analytics design.

The repository consists of a Next.js frontend (under `frontend/src`, plus the
`PositionHistory` component) and a FastAPI backend.  The frontend sources are
embedded here directly; the backend components (position accountant, sync
checkpoint tracker, behavioral analytics) are not present in the source tree,
so they are modelled from the design specification, as flagged in the doc
comment of each such definition.

Numeric values (JS `number` / Python decimals) are modelled as rationals `ℚ`,
except the trigonometric timezone inference, which is modelled over `ℝ`.
String comparison (used for deterministic tie-breaks) is modelled as
lexicographic comparison of character codes, which is what both Python and
JavaScript string comparison perform.
-/

namespace Harpoon

/-! ### Character-code lexicographic order on strings -/

/-- Lexicographic `≤` on lists of characters, by character code. -/
def listCharLe : List Char → List Char → Bool
  | [], _ => true
  | _ :: _, [] => false
  | a :: as, b :: bs =>
    if a.toNat < b.toNat then true
    else if b.toNat < a.toNat then false
    else listCharLe as bs

/-- Lexicographic `≤` on strings, by character code (Python/JS comparison). -/
def strLe (a b : String) : Prop := listCharLe a.data b.data = true

instance : DecidableRel strLe := fun a b => by
  unfold strLe; infer_instance

/-! ### The Trade record (data model §3, `frontend/src/types/trade.ts`)

`tx_hash`, `timestamp`, `market_id`, `market_title`, `outcome`, `side`,
`amount`, `price` and `token_id` come from the `Trade` interface in
`frontend/src/types/trade.ts` (nullable fields become `Option`);
`market_slug` is the additional nullable field referenced by the
`PositionHistory` component; `block_number` and `category` are the chain
block number and category label of the data model (§3), carried by the
backend's stored records. -/

structure Trade where
  tx_hash : String
  timestamp : ℕ
  block_number : ℕ
  market_id : Option String
  market_slug : Option String
  market_title : Option String
  category : Option String
  outcome : Option String
  side : Option String
  amount : Option ℚ
  price : Option ℚ
deriving DecidableEq

/-! ### The PositionHistory share replay (`src/unnamed/part_004`) -/

/-- Ascending-timestamp order used by
`[...trades].sort((a, b) => new Date(a.timestamp).getTime() - new Date(b.timestamp).getTime())`. -/
def tsLe (a b : Trade) : Prop := a.timestamp ≤ b.timestamp

instance : DecidableRel tsLe := fun a b => by
  unfold tsLe; infer_instance

instance : IsTotal Trade tsLe := ⟨fun a b => Nat.le_total a.timestamp b.timestamp⟩

instance : IsTrans Trade tsLe := ⟨fun _ _ _ h1 h2 => Nat.le_trans h1 h2⟩

/-- `trade.market_slug || trade.market_id || 'unknown'`. -/
def marketKey (t : Trade) : String := t.market_slug.getD (t.market_id.getD "unknown")

/-- The per-position key `` `${marketKey}:${trade.outcome}` `` of the
PositionHistory component, modelled as the pair of its two components. -/
def frontPosKey (t : Trade) : String × Option String := (marketKey t, t.outcome)

/-- The running `positions[posKey].shares` map of the PositionHistory
component, total with default `0` (entries are created at `0`). -/
def FrontPos : Type := String × Option String → ℚ

/-- One loop iteration of the PositionHistory replay
(`src/unnamed/part_004`): parse price and amount with `|| '0'` defaults,
skip the trade when `price <= 0 || amount <= 0`, convert `shares = amount /
price`, then `shares += shares` on a buy and
`shares = Math.max(0, shares - shares)` on a sell; any other side (e.g.
`redeem`) leaves the tracked shares unchanged. -/
def frontStep (m : FrontPos) (t : Trade) : FrontPos :=
  let price := t.price.getD 0
  let amount := t.amount.getD 0
  if price ≤ 0 ∨ amount ≤ 0 then m
  else
    let shares := amount / price
    let k := frontPosKey t
    if t.side = some "buy" then
      fun k2 => if k2 = k then m k2 + shares else m k2
    else if t.side = some "sell" then
      fun k2 => if k2 = k then max 0 (m k2 - shares) else m k2
    else m

/-- The PositionHistory replay over an explicit processing order
(the state after every step is `frontReplaySteps` of a prefix). -/
def frontReplaySteps (l : List Trade) : FrontPos :=
  l.foldl frontStep (fun _ => 0)

/-- The PositionHistory replay: sort by timestamp ascending, then fold the
per-trade share updates from the all-zero position map. -/
def frontReplay (trades : List Trade) : FrontPos :=
  frontReplaySteps (List.insertionSort tsLe trades)

/-! ### The PositionHistory paged fetch (`fetchAllTrades`, `src/unnamed/part_004`) -/

/-- The trades page served by `/api/trades/{address}?page=..&limit=..`:
offset slice of the full (chronologically descending) trade set. -/
def pageSlice (all : List Trade) (limit page : ℕ) : List Trade :=
  (all.drop ((page - 1) * limit)).take limit

/-- The `while (page <= 50)` loop of `fetchAllTrades`: fetch a page, append
it, stop when a page returns fewer than `limit` records, else advance; the
fuel counts the pages remaining before `page` passes 50. -/
def fetchLoop (all : List Trade) (limit : ℕ) : ℕ → ℕ → List Trade → List Trade
  | 0, _, acc => acc
  | fuel + 1, page, acc =>
    let pageData := pageSlice all limit page
    let acc2 := acc ++ pageData
    if pageData.length < limit then acc2 else fetchLoop all limit fuel (page + 1) acc2

/-- `fetchAllTrades` of the PositionHistory component: up to 50 pages of 100
trades each, starting at page 1. -/
def fetchAllTrades (all : List Trade) : List Trade :=
  fetchLoop all 100 50 1 []

/-! ### The Position Accountant (spec §4.2; backend code not in the tree) -/

/-- A per-(market, outcome) position key, per §4.2. -/
def PosKey : Type := Option String × Option String

instance : DecidableEq PosKey := fun a b => by
  unfold PosKey; infer_instance

/-- Modelled from the spec: the running `shares` quantity and running cost
maintained per (market, outcome) key by the backend Position Accountant
(§4.2), whose Python source is not in the tree. -/
structure PosEntry where
  shares : ℚ
  cost : ℚ
deriving DecidableEq

/-- Modelled from the spec: the Position Accountant's state — the
per-(market, outcome) position map (as an association list) plus the
running realized earnings (§4.2). -/
structure AccState where
  positions : List (PosKey × PosEntry)
  earnings : ℚ
deriving DecidableEq

/-- The position stored for key `k` (zero shares and cost when absent). -/
def getPos (s : AccState) (k : PosKey) : PosEntry :=
  match s.positions.find? (fun p => decide (p.1 = k)) with
  | some p => p.2
  | none => ⟨0, 0⟩

/-- Store entry `e` for key `k`, replacing any previous entry. -/
def setPos (s : AccState) (k : PosKey) (e : PosEntry) : AccState :=
  { s with positions := (k, e) :: s.positions.filter (fun p => !(decide (p.1 = k))) }

/-- The (market, outcome) key of a trade, per §4.2. -/
def accKey (t : Trade) : PosKey := (t.market_id, t.outcome)

/-- Modelled from the spec: the degenerate-input test of §4.2 — a trade with
`amount ≤ 0` or an explicit `price ≤ 0` contributes zero to shares and
earnings.  A missing price is degenerate except on a `redeem`, whose price
is null by the data model (§3) and which must still close the position. -/
def isDegenerate (t : Trade) : Bool :=
  decide (t.amount.getD 0 ≤ 0) ||
    (match t.price with
     | some p => decide (p ≤ 0)
     | none => decide (t.side ≠ some "redeem"))

/-- Modelled from the spec: one replay step of the backend Position
Accountant (§4.2), whose Python source is not in the tree.  Degenerate
trades contribute nothing.  On a `buy` of amount `A` at price `P`:
`shares += A / P`, `cost += A`.  On a `sell`: the shares removed are
`A / P` clamped to the position (never negative), realized earnings gain
the proceeds minus the proportional cost basis removed.  On a `redeem`:
realized earnings gain `amount` minus the position's remaining cost and the
position closes (shares and cost reset to 0). -/
def accStep (s : AccState) (t : Trade) : AccState :=
  if isDegenerate t then s
  else
    let A := t.amount.getD 0
    let k := accKey t
    let e := getPos s k
    if t.side = some "buy" then
      let P := t.price.getD 0
      setPos s k ⟨e.shares + A / P, e.cost + A⟩
    else if t.side = some "sell" then
      let P := t.price.getD 0
      let sold := min (A / P) e.shares
      let costRemoved := if e.shares = 0 then 0 else e.cost * sold / e.shares
      { setPos s k ⟨e.shares - sold, e.cost - costRemoved⟩ with
          earnings := s.earnings + A - costRemoved }
    else if t.side = some "redeem" then
      { setPos s k ⟨0, 0⟩ with earnings := s.earnings + A - e.cost }
    else s

/-- Modelled from the spec: the accountant's deterministic replay order —
timestamp ascending, ties by block number ascending, then by transaction
hash ascending (§4.2). -/
def tradeLe (a b : Trade) : Prop :=
  a.timestamp < b.timestamp ∨
    (a.timestamp = b.timestamp ∧
      (a.block_number < b.block_number ∨
        (a.block_number = b.block_number ∧ strLe a.tx_hash b.tx_hash)))

instance : DecidableRel tradeLe := fun a b => by
  unfold tradeLe; infer_instance

/-- The accountant's sort key. -/
def sortKey (t : Trade) : ℕ × ℕ × String := (t.timestamp, t.block_number, t.tx_hash)

/-- Modelled from the spec: `accountPositions` (§4.2) — sort the trades
into the deterministic replay order and fold the accounting step from the
empty state. -/
def accountPositions (trades : List Trade) : AccState :=
  (List.insertionSort tradeLe trades).foldl accStep ⟨[], 0⟩

/-! ### Insider / contrarian metrics (spec §4.3; backend code not in the tree) -/

/-- Modelled from the spec: the market-resolution lookup result supplied by
an external collaborator (§6, `getResolution`). -/
structure ResolutionInfo where
  resolved : Bool
  winningOutcome : Option String
  closeTimestamp : ℕ

/-- A resolution lookup, keyed by (market identifier, outcome). -/
def ResLookup : Type := Option String → Option String → ResolutionInfo

/-- Modelled from the spec: the trades whose market has resolved; trades
lacking resolution data are excluded (§4.3). -/
def resolvedTradesOf (res : ResLookup) (l : List Trade) : List Trade :=
  l.filter (fun t => (res t.market_id t.outcome).resolved)

/-- A resolved trade wins when its outcome matches the resolved outcome. -/
def tradeWins (res : ResLookup) (t : Trade) : Bool :=
  decide (t.outcome = (res t.market_id t.outcome).winningOutcome)

/-- A contrarian trade: entry price strictly below 0.5 (§4.3). -/
def isContrarian (t : Trade) : Bool :=
  match t.price with
  | some p => decide (p < 1 / 2)
  | none => false

/-- Hours between the trade and the market close (§4.3). -/
def hoursBeforeClose (res : ResLookup) (t : Trade) : ℚ :=
  (((res t.market_id t.outcome).closeTimestamp : ℚ) - (t.timestamp : ℚ)) / 3600

/-- The insider-metrics record (`InsiderMetrics` in
`frontend/src/types/trade.ts`); nullable rate fields become `Option ℚ`
(rates are percentages). -/
structure InsiderMetrics where
  win_rate : Option ℚ
  expected_win_rate : Option ℚ
  win_rate_edge : Option ℚ
  contrarian_trades : ℕ
  contrarian_wins : ℕ
  contrarian_win_rate : Option ℚ
  avg_hours_before_close : Option ℚ
  trades_within_24h : ℕ
  trades_within_1h : ℕ
  resolved_trades : ℕ
  total_trades : ℕ

/-- Modelled from the spec: the backend insider/contrarian metrics (§4.3),
whose Python source is not in the tree.  Every rate field whose denominator
is zero is `none`; no division by zero occurs. -/
def insiderMetricsOf (res : ResLookup) (l : List Trade) : InsiderMetrics :=
  let rs := resolvedTradesOf res l
  let n := rs.length
  let wins := (rs.filter (tradeWins res)).length
  let con := rs.filter isContrarian
  let conWins := (con.filter (tradeWins res)).length
  let wr : ℚ := 100 * wins / n
  let ewr : ℚ := 100 * ((rs.map (fun t => t.price.getD 0)).sum) / n
  { win_rate := if n = 0 then none else some wr
    expected_win_rate := if n = 0 then none else some ewr
    win_rate_edge := if n = 0 then none else some (wr - ewr)
    contrarian_trades := con.length
    contrarian_wins := conWins
    contrarian_win_rate :=
      if con.length = 0 then none else some (100 * conWins / con.length)
    avg_hours_before_close :=
      if n = 0 then none else some ((rs.map (hoursBeforeClose res)).sum / n)
    trades_within_24h :=
      (rs.filter (fun t =>
        decide (0 ≤ hoursBeforeClose res t) && decide (hoursBeforeClose res t ≤ 24))).length
    trades_within_1h :=
      (rs.filter (fun t =>
        decide (0 ≤ hoursBeforeClose res t) && decide (hoursBeforeClose res t ≤ 1))).length
    resolved_trades := n
    total_trades := l.length }

/-! ### Timezone inference (spec §4.3; backend code not in the tree) -/

/-- The UTC hour-of-day of a trade timestamp (epoch seconds). -/
def hourOfTrade (t : Trade) : ℕ := t.timestamp / 3600 % 24

/-- The 24-bin histogram of trade counts by UTC hour-of-day. -/
def histogramOf (l : List Trade) : Fin 24 → ℕ :=
  fun h => l.countP (fun t => decide (hourOfTrade t = h.val))

/-- Total count of a histogram. -/
def histTotal (hist : Fin 24 → ℕ) : ℕ := ∑ k : Fin 24, hist k

/-- The angle `2π·h/24` of an hour-of-day (§4.3). -/
noncomputable def angleOfHour (h : ℕ) : ℝ := 2 * Real.pi * h / 24

/-- Modelled from the spec: the count-weighted sum of sines of the hour
angles (§4.3, circular mean), backend source not in the tree. -/
noncomputable def tzSin (hist : Fin 24 → ℕ) : ℝ :=
  ∑ k : Fin 24, (hist k : ℝ) * Real.sin (angleOfHour k.val)

/-- Modelled from the spec: the count-weighted sum of cosines of the hour
angles (§4.3, circular mean), backend source not in the tree. -/
noncomputable def tzCos (hist : Fin 24 → ℕ) : ℝ :=
  ∑ k : Fin 24, (hist k : ℝ) * Real.cos (angleOfHour k.val)

open Classical in
/-- Two-argument arctangent (`math.atan2(y, x)` semantics). -/
noncomputable def atan2R (y x : ℝ) : ℝ :=
  if 0 < x then Real.arctan (y / x)
  else if x < 0 then
    (if 0 ≤ y then Real.arctan (y / x) + Real.pi else Real.arctan (y / x) - Real.pi)
  else if 0 < y then Real.pi / 2
  else if y < 0 then -(Real.pi / 2)
  else 0

/-- The circular weighted mean angle of the histogram (§4.3). -/
noncomputable def meanAngle (hist : Fin 24 → ℕ) : ℝ := atan2R (tzSin hist) (tzCos hist)

/-- Reduce an hour value into `[0, 24)`. -/
noncomputable def hourMod24 (x : ℝ) : ℝ := 24 * Int.fract (x / 24)

/-- The activity center (UTC hour in `[0, 24)`) of a histogram: the mean
angle mapped back to an hour-of-day (§4.3). -/
noncomputable def activityCenter (hist : Fin 24 → ℕ) : ℝ :=
  hourMod24 (meanAngle hist * 12 / Real.pi)

/-- Modelled from the spec: the nullable activity center — `none` when the
total trade count is zero (§4.3), backend source not in the tree. -/
noncomputable def activityCenterOf (hist : Fin 24 → ℕ) : Option ℝ :=
  if histTotal hist = 0 then none else some (activityCenter hist)

/-- The activity center shifted by a candidate UTC offset, in local hours. -/
noncomputable def localCenter (c : ℝ) (o : ℤ) : ℝ := hourMod24 (c + o)

/-- Circular distance between two hour values. -/
noncomputable def circDist (x y : ℝ) : ℝ := min |x - y| (24 - |x - y|)

open Classical in
/-- Modelled from the spec: the offsets in `[-12, +14]` that place the
activity center inside the 08:00–23:00 local waking window (§4.3). -/
noncomputable def offsetCandidates (c : ℝ) : Finset ℤ :=
  (Finset.Icc (-12 : ℤ) 14).filter (fun o => 8 ≤ localCenter c o ∧ localCenter c o ≤ 23)

open Classical in
/-- Modelled from the spec: the inferred UTC offset — among qualifying
offsets, one minimizing the circular distance from the local activity
center to the window midpoint 15:30 (§4.3), backend source not in the
tree. -/
noncomputable def inferUtcOffset (c : ℝ) : Option ℤ :=
  let q := offsetCandidates c
  let best := q.filter (fun o =>
    ∀ o2 ∈ q, circDist (localCenter c o) (31 / 2) ≤ circDist (localCenter c o2) (31 / 2))
  if h : best.Nonempty then some (best.min' h) else none

/-- The timezone-analysis record (`TimezoneAnalysis` in
`frontend/src/types/trade.ts`). -/
structure TimezoneAnalysis where
  hourly_distribution : Fin 24 → ℕ
  inferred_timezone : Option String
  inferred_utc_offset : Option ℤ
  activity_center_utc : Option ℝ

/-- Modelled from the spec: the backend timezone inference (§4.3), whose
Python source is not in the tree; `labels` is the best-effort named-timezone
lookup for an offset.  When the total trade count is zero every output is
null/empty. -/
noncomputable def timezoneAnalysisOf (labels : ℤ → Option String)
    (hist : Fin 24 → ℕ) : TimezoneAnalysis :=
  if histTotal hist = 0 then ⟨hist, none, none, none⟩
  else
    ⟨hist, (inferUtcOffset (activityCenter hist)).bind labels,
      inferUtcOffset (activityCenter hist), some (activityCenter hist)⟩

/-! ### Category aggregation (spec §4.3; backend code not in the tree;
top-8 slice in `frontend/src/components/TopCategories.tsx`) -/

/-- One category aggregate (`CategoryStat` in
`frontend/src/types/trade.ts`, count and percentage fields). -/
structure CategoryStat where
  name : String
  count : ℕ
  percentage : ℚ
deriving DecidableEq

/-- The distinct category labels occurring in the trade list (unlabelled
trades are excluded, §4.3). -/
def categoryNames (l : List Trade) : List String :=
  (l.filterMap (fun t => t.category)).dedup

/-- Trades carrying the given category label. -/
def catCount (l : List Trade) (n : String) : ℕ :=
  l.countP (fun t => decide (t.category = some n))

/-- Modelled from the spec: the category ordering of §4.3 — count
descending, ties by category name ascending. -/
def catLe (a b : CategoryStat) : Prop :=
  b.count < a.count ∨ (a.count = b.count ∧ strLe a.name b.name)

instance : DecidableRel catLe := fun a b => by
  unfold catLe; infer_instance

/-- Modelled from the spec: the full category aggregation of the backend
(§4.3), whose Python source is not in the tree — count and share of total
per label, sorted by count descending with ties by name ascending. -/
def categoryStatsAll (l : List Trade) : List CategoryStat :=
  List.insertionSort catLe
    ((categoryNames l).map (fun n => ⟨n, catCount l n, 100 * catCount l n / l.length⟩))

/-- The categories exposed to callers: the top 8 of the full aggregation
(spec §4.3 policy; `categories.slice(0, 8)` in
`frontend/src/components/TopCategories.tsx`). -/
def topCategories (l : List Trade) : List CategoryStat :=
  (categoryStatsAll l).take 8

/-! ### Sync checkpoint (spec §3, §4.1; backend code not in the tree) -/

/-- Modelled from the spec: one sync attempt against the external trade
source — either the source serves its current event stream (block numbers),
or the fetch fails (§4.1 failure policy). -/
inductive SyncOp where
  | success (stream : List ℕ)
  | failure

/-- Modelled from the spec: the events fetched by a sync — with no
checkpoint a full fetch, otherwise only events at or after the last
observed block number (§4.1). -/
def fetchSince (cp : Option ℕ) (stream : List ℕ) : List ℕ :=
  match cp with
  | none => stream
  | some c => stream.filter (fun b => decide (c ≤ b))

/-- Modelled from the spec: after a successful merge, the checkpoint's last
observed block number becomes the maximum block number seen (§4.1); a fetch
that saw no events leaves it unchanged. -/
def updateCheckpoint (cp : Option ℕ) (fetched : List ℕ) : Option ℕ :=
  match fetched.max? with
  | none => cp
  | some m => some m

/-- Modelled from the spec: the checkpoint after one sync operation —
advanced only on success, untouched by a failed fetch (§4.1), backend
source not in the tree. -/
def applySync (cp : Option ℕ) : SyncOp → Option ℕ
  | .success stream => updateCheckpoint cp (fetchSince cp stream)
  | .failure => cp

/-- Checkpoint comparison: an absent checkpoint precedes anything; present
checkpoints compare by block number. -/
def cpLe : Option ℕ → Option ℕ → Prop
  | none, _ => True
  | some _, none => False
  | some a, some b => a ≤ b

/-! ### The paginated query facade (spec §6; default page size in
`frontend/src/lib/api.ts`) -/

/-- Descending-timestamp order of the chronologically-descending trade set. -/
def tsGe (a b : Trade) : Prop := b.timestamp ≤ a.timestamp

instance : DecidableRel tsGe := fun a b => by
  unfold tsGe; infer_instance

instance : IsTotal Trade tsGe := ⟨fun a b => Nat.le_total b.timestamp a.timestamp⟩

instance : IsTrans Trade tsGe := ⟨fun _ _ _ h1 h2 => Nat.le_trans h2 h1⟩

/-- The wallet's trade set in chronologically descending order. -/
def sortTradesDesc (l : List Trade) : List Trade := List.insertionSort tsGe l

/-- Modelled from the spec: `getTradesPage(wallet, page, pageSize)` (§6) —
an offset-based page of the chronologically-descending trade set together
with the full trade count, backend source not in the tree. -/
def getTradesPage (l : List Trade) (page pageSize : ℕ) : List Trade × ℕ :=
  (((sortTradesDesc l).drop ((page - 1) * pageSize)).take pageSize, l.length)

/-- The default page size used by `fetchTrades` in
`frontend/src/lib/api.ts` (`limit: number = 50`). -/
def fetchTradesDefaultLimit : ℕ := 50

/-! ### Concrete trade records used by the scenario checks -/

/-- A sample trade record. -/
def sampleTrade : Trade :=
  ⟨"0xabc", 1000, 1, some "m1", none, some "Market One", some "Politics",
    some "Yes", some "buy", some 10, some (1 / 2)⟩

/-- Scenario C1: a `buy` of amount 100 at price 0.5. -/
def c1Buy : Trade :=
  ⟨"0xc1", 100, 1, some "m1", none, none, none, some "Yes", some "buy",
    some 100, some (1 / 2)⟩

/-- Scenario C1: a `redeem` of amount 60 on the same (market, outcome). -/
def c1Redeem : Trade :=
  ⟨"0xc2", 200, 2, some "m1", none, none, none, some "Yes", some "redeem",
    some 60, none⟩

/-- Counterexample C2: a `sell` sharing the timestamp, block number and
transaction hash of `c2BuyT`. -/
def c2SellT : Trade :=
  ⟨"0xh", 100, 5, some "m1", none, none, none, some "Yes", some "sell",
    some 10, some 1⟩

/-- Counterexample C2: a `buy` sharing the timestamp, block number and
transaction hash of `c2SellT`. -/
def c2BuyT : Trade :=
  ⟨"0xh", 100, 5, some "m1", none, none, none, some "Yes", some "buy",
    some 10, some 1⟩

/-- Scenario C3: a `buy` of 10 shares (amount 10 at price 1). -/
def c3Buy : Trade :=
  ⟨"0xb1", 100, 1, some "m1", none, none, none, some "Yes", some "buy",
    some 10, some 1⟩

/-- Scenario C3: a `sell` equivalent to 15 shares (amount 15 at price 1). -/
def c3Sell : Trade :=
  ⟨"0xb2", 200, 2, some "m1", none, none, none, some "Yes", some "sell",
    some 15, some 1⟩

/-- Scenario C4: a degenerate trade (negative amount). -/
def c4Deg : Trade :=
  ⟨"0xd", 50, 1, some "m1", none, none, some "Politics", some "Yes",
    some "buy", some (-5), some (1 / 2)⟩

/-- Scenario C9: six trades over the two category labels `"B"` and `"A"`,
three each. -/
def c9Trades : List Trade :=
  [⟨"0x1", 1, 1, some "m1", none, none, some "B", some "Yes", some "buy", some 1, some 1⟩,
   ⟨"0x2", 2, 2, some "m1", none, none, some "B", some "Yes", some "buy", some 1, some 1⟩,
   ⟨"0x3", 3, 3, some "m1", none, none, some "B", some "Yes", some "buy", some 1, some 1⟩,
   ⟨"0x4", 4, 4, some "m1", none, none, some "A", some "Yes", some "buy", some 1, some 1⟩,
   ⟨"0x5", 5, 5, some "m1", none, none, some "A", some "Yes", some "buy", some 1, some 1⟩,
   ⟨"0x6", 6, 6, some "m1", none, none, some "A", some "Yes", some "buy", some 1, some 1⟩]

/-- An everywhere-unresolved resolution lookup. -/
def res0 : ResLookup := fun _ _ => ⟨false, none, 0⟩

/-- An empty named-timezone label table. -/
def labels0 : ℤ → Option String := fun _ => none

/-- Scenario C6: one trade in each of the hours 23, 0 and 1. -/
def histW : Fin 24 → ℕ := fun k => if k = 23 ∨ k = 0 ∨ k = 1 then 1 else 0

/-! ### Properties of the character-code order -/

theorem listCharLe_total (a b : List Char) : listCharLe a b = true ∨ listCharLe b a = true := by
  induction a generalizing b with
  | nil => left; rfl
  | cons x xs ih =>
    cases b with
    | nil => right; rfl
    | cons y ys =>
      rcases Nat.lt_trichotomy x.toNat y.toNat with h | h | h
      · left; simp [listCharLe, h]
      · rcases ih ys with h2 | h2
        · left; simp [listCharLe, h, h2]
        · right; simp [listCharLe, h.symm, h2]
      · right; simp [listCharLe, h]

theorem char_toNat_inj {a b : Char} (h : a.toNat = b.toNat) : a = b := by
  apply Char.ext
  rcases a with ⟨⟨⟨va, hva⟩⟩, pa⟩
  rcases b with ⟨⟨⟨vb, hvb⟩⟩, pb⟩
  simp_all [Char.toNat, UInt32.toNat]

theorem listCharLe_antisymm (a b : List Char) (h1 : listCharLe a b = true)
    (h2 : listCharLe b a = true) : a = b := by
  induction a generalizing b with
  | nil =>
    cases b with
    | nil => rfl
    | cons y ys => simp [listCharLe] at h2
  | cons x xs ih =>
    cases b with
    | nil => simp [listCharLe] at h1
    | cons y ys =>
      rcases Nat.lt_trichotomy x.toNat y.toNat with h | h | h
      · simp [listCharLe, h, Nat.not_lt.mpr (Nat.le_of_lt h)] at h2
      · simp [listCharLe, h] at h1 h2
        rw [char_toNat_inj h, ih ys h1 h2]
      · simp [listCharLe, h, Nat.not_lt.mpr (Nat.le_of_lt h)] at h1

theorem listCharLe_trans (a b c : List Char) (h1 : listCharLe a b = true)
    (h2 : listCharLe b c = true) : listCharLe a c = true := by
  induction a generalizing b c with
  | nil => rfl
  | cons x xs ih =>
    cases b with
    | nil => simp [listCharLe] at h1
    | cons y ys =>
      cases c with
      | nil => simp [listCharLe] at h2
      | cons z zs =>
        simp only [listCharLe] at h1 h2 ⊢
        by_cases hxy : x.toNat < y.toNat
        · by_cases hyz : y.toNat < z.toNat
          · simp [show x.toNat < z.toNat from by omega]
          · by_cases hzy : z.toNat < y.toNat
            · simp [hyz, hzy] at h2
            · simp [show x.toNat < z.toNat from by omega]
        · by_cases hyx : y.toNat < x.toNat
          · simp [hxy, hyx] at h1
          · by_cases hyz : y.toNat < z.toNat
            · simp [show x.toNat < z.toNat from by omega]
            · by_cases hzy : z.toNat < y.toNat
              · simp [hyz, hzy] at h2
              · simp [hxy, hyx] at h1
                simp [hyz, hzy] at h2
                simp [show ¬ x.toNat < z.toNat from by omega,
                  show ¬ z.toNat < x.toNat from by omega]
                exact ih ys zs h1 h2

theorem strLe_total (a b : String) : strLe a b ∨ strLe b a := listCharLe_total a.data b.data

theorem strLe_trans {a b c : String} (h1 : strLe a b) (h2 : strLe b c) : strLe a c :=
  listCharLe_trans a.data b.data c.data h1 h2

theorem strLe_antisymm {a b : String} (h1 : strLe a b) (h2 : strLe b a) : a = b := by
  rcases a with ⟨da⟩
  rcases b with ⟨db⟩
  have : da = db := listCharLe_antisymm da db h1 h2
  rw [this]

/-! ### Order instances for the replay and category orders -/

instance : IsTotal Trade tradeLe :=
  ⟨by
    intro a b
    unfold tradeLe
    rcases Nat.lt_trichotomy a.timestamp b.timestamp with h | h | h
    · left; left; exact h
    · rcases Nat.lt_trichotomy a.block_number b.block_number with h2 | h2 | h2
      · left; right; exact ⟨h, Or.inl h2⟩
      · rcases strLe_total a.tx_hash b.tx_hash with h3 | h3
        · left; right; exact ⟨h, Or.inr ⟨h2, h3⟩⟩
        · right; right; exact ⟨h.symm, Or.inr ⟨h2.symm, h3⟩⟩
      · right; right; exact ⟨h.symm, Or.inl h2⟩
    · right; left; exact h⟩

instance : IsTrans Trade tradeLe :=
  ⟨by
    intro a b c h1 h2
    unfold tradeLe at h1 h2 ⊢
    rcases h1 with h1 | ⟨hts1, h1⟩
    · rcases h2 with h2 | ⟨hts2, _⟩
      · left; omega
      · left; omega
    · rcases h2 with h2 | ⟨hts2, h2⟩
      · left; omega
      · right
        refine ⟨by omega, ?_⟩
        rcases h1 with h1 | ⟨hb1, h1⟩
        · rcases h2 with h2 | ⟨hb2, _⟩
          · left; omega
          · left; omega
        · rcases h2 with h2 | ⟨hb2, h2⟩
          · left; omega
          · right; exact ⟨by omega, strLe_trans h1 h2⟩⟩

theorem tradeLe_antisymm_key {a b : Trade} (h1 : tradeLe a b) (h2 : tradeLe b a) :
    sortKey a = sortKey b := by
  unfold tradeLe at h1 h2
  unfold sortKey
  rcases h1 with h1 | ⟨hts1, h1⟩ <;> rcases h2 with h2 | ⟨hts2, h2⟩
  · omega
  · omega
  · omega
  · rcases h1 with h1 | ⟨hb1, h1⟩ <;> rcases h2 with h2 | ⟨hb2, h2⟩
    · omega
    · omega
    · omega
    · have : a.tx_hash = b.tx_hash := strLe_antisymm h1 h2
      simp [hts1, hb1, this]

instance : IsTotal CategoryStat catLe :=
  ⟨by
    intro a b
    unfold catLe
    rcases Nat.lt_trichotomy a.count b.count with h | h | h
    · right; left; exact h
    · rcases strLe_total a.name b.name with h3 | h3
      · left; right; exact ⟨h, h3⟩
      · right; right; exact ⟨h.symm, h3⟩
    · left; left; exact h⟩

instance : IsTrans CategoryStat catLe :=
  ⟨by
    intro a b c h1 h2
    unfold catLe at h1 h2 ⊢
    rcases h1 with h1 | ⟨hc1, h1⟩
    · rcases h2 with h2 | ⟨hc2, _⟩
      · left; omega
      · left; omega
    · rcases h2 with h2 | ⟨hc2, h2⟩
      · left; omega
      · right; exact ⟨by omega, strLe_trans h1 h2⟩⟩

/-! ### Equality of sorted permutations -/

theorem sorted_perm_eq {α : Type} {r : α → α → Prop} :
    ∀ {l1 l2 : List α}, l1.Perm l2 → l1.Sorted r → l2.Sorted r →
      (∀ a ∈ l1, ∀ b ∈ l1, r a b → r b a → a = b) → l1 = l2 := by
  intro l1
  induction l1 with
  | nil =>
    intro l2 hp _ _ _
    exact (hp.symm.eq_nil).symm
  | cons a t1 ih =>
    intro l2 hp hs1 hs2 hanti
    cases l2 with
    | nil => exact absurd hp.eq_nil (by simp)
    | cons b t2 =>
      have hab : a = b := by
        have hain : a ∈ b :: t2 := hp.subset (List.mem_cons_self a t1)
        rcases List.mem_cons.mp hain with h | hat2
        · exact h
        have hbin : b ∈ a :: t1 := hp.symm.subset (List.mem_cons_self b t2)
        rcases List.mem_cons.mp hbin with h | hbt1
        · exact h.symm
        have hrab : r a b := (List.sorted_cons.mp hs1).1 b hbt1
        have hrba : r b a := (List.sorted_cons.mp hs2).1 a hat2
        exact hanti a (List.mem_cons_self a t1) b (List.mem_cons_of_mem a hbt1) hrab hrba
      subst hab
      have hp2 : t1.Perm t2 := hp.cons_inv
      have : t1 = t2 := by
        refine ih hp2 (List.sorted_cons.mp hs1).2 (List.sorted_cons.mp hs2).2 ?_
        intro x hx y hy hxy hyx
        exact hanti x (List.mem_cons_of_mem a hx) y (List.mem_cons_of_mem a hy) hxy hyx
      rw [this]

/-! ### Position-map lemmas -/

theorem getPos_setPos_same (s : AccState) (k : PosKey) (e : PosEntry) :
    getPos (setPos s k e) k = e := by
  simp [getPos, setPos, List.find?]

theorem find_filter_ne (l : List (PosKey × PosEntry)) (k k2 : PosKey) (h : k2 ≠ k) :
    (l.filter (fun p => !(decide (p.1 = k)))).find? (fun p => decide (p.1 = k2)) =
      l.find? (fun p => decide (p.1 = k2)) := by
  have hkne : ¬ (k = k2) := fun hc => h hc.symm
  induction l with
  | nil => rfl
  | cons p t ih =>
    by_cases hp : p.1 = k
    · have hne : ¬ p.1 = k2 := by rw [hp]; exact hkne
      simp [List.filter_cons, List.find?_cons, hp, hne, hkne, ih]
    · by_cases hp2 : p.1 = k2
      · simp [List.filter_cons, List.find?_cons, hp, hp2, h]
      · simp [List.filter_cons, List.find?_cons, hp, hp2, h, ih]

theorem getPos_setPos_ne (s : AccState) (k k2 : PosKey) (e : PosEntry) (h : k2 ≠ k) :
    getPos (setPos s k e) k2 = getPos s k2 := by
  have hne : ¬ k = k2 := fun hc => h hc.symm
  simp [getPos, setPos, List.find?, hne, find_filter_ne s.positions k k2 h]

/-! ### Case equations for the replay steps -/

theorem frontStep_skip (m : FrontPos) (t : Trade)
    (hd : t.price.getD 0 ≤ 0 ∨ t.amount.getD 0 ≤ 0) : frontStep m t = m := by
  unfold frontStep
  rw [if_pos hd]

theorem frontStep_buy (m : FrontPos) (t : Trade)
    (hd : ¬ (t.price.getD 0 ≤ 0 ∨ t.amount.getD 0 ≤ 0)) (hb : t.side = some "buy") :
    frontStep m t = fun k2 =>
      if k2 = frontPosKey t then m k2 + t.amount.getD 0 / t.price.getD 0 else m k2 := by
  unfold frontStep
  rw [if_neg hd, if_pos hb]

theorem frontStep_sell (m : FrontPos) (t : Trade)
    (hd : ¬ (t.price.getD 0 ≤ 0 ∨ t.amount.getD 0 ≤ 0)) (hb : ¬ t.side = some "buy")
    (hs : t.side = some "sell") :
    frontStep m t = fun k2 =>
      if k2 = frontPosKey t then max 0 (m k2 - t.amount.getD 0 / t.price.getD 0)
      else m k2 := by
  unfold frontStep
  rw [if_neg hd, if_neg hb, if_pos hs]

theorem frontStep_other (m : FrontPos) (t : Trade)
    (hb : ¬ t.side = some "buy") (hs : ¬ t.side = some "sell") :
    frontStep m t = m := by
  unfold frontStep
  by_cases hd : t.price.getD 0 ≤ 0 ∨ t.amount.getD 0 ≤ 0
  · rw [if_pos hd]
  · rw [if_neg hd, if_neg hb, if_neg hs]

theorem accStep_skip (s : AccState) (t : Trade) (hd : isDegenerate t = true) :
    accStep s t = s := by
  unfold accStep
  rw [if_pos hd]

theorem accStep_buy (s : AccState) (t : Trade) (hd : ¬ isDegenerate t = true)
    (hb : t.side = some "buy") :
    accStep s t = setPos s (accKey t)
      ⟨(getPos s (accKey t)).shares + t.amount.getD 0 / t.price.getD 0,
        (getPos s (accKey t)).cost + t.amount.getD 0⟩ := by
  unfold accStep
  rw [if_neg hd, if_pos hb]

theorem accStep_sell (s : AccState) (t : Trade) (hd : ¬ isDegenerate t = true)
    (hb : ¬ t.side = some "buy") (hs : t.side = some "sell") :
    accStep s t =
      { setPos s (accKey t)
          ⟨(getPos s (accKey t)).shares -
              min (t.amount.getD 0 / t.price.getD 0) (getPos s (accKey t)).shares,
            (getPos s (accKey t)).cost -
              (if (getPos s (accKey t)).shares = 0 then 0
               else (getPos s (accKey t)).cost *
                 min (t.amount.getD 0 / t.price.getD 0) (getPos s (accKey t)).shares /
                   (getPos s (accKey t)).shares)⟩ with
        earnings := s.earnings + t.amount.getD 0 -
          (if (getPos s (accKey t)).shares = 0 then 0
           else (getPos s (accKey t)).cost *
             min (t.amount.getD 0 / t.price.getD 0) (getPos s (accKey t)).shares /
               (getPos s (accKey t)).shares) } := by
  unfold accStep
  rw [if_neg hd, if_neg hb, if_pos hs]

theorem accStep_redeem (s : AccState) (t : Trade) (hd : ¬ isDegenerate t = true)
    (hr : t.side = some "redeem") :
    accStep s t = { setPos s (accKey t) ⟨0, 0⟩ with
      earnings := s.earnings + t.amount.getD 0 - (getPos s (accKey t)).cost } := by
  have hb : ¬ t.side = some "buy" := by rw [hr]; simp
  have hs : ¬ t.side = some "sell" := by rw [hr]; simp
  unfold accStep
  rw [if_neg hd, if_neg hb, if_neg hs, if_pos hr]

theorem accStep_other (s : AccState) (t : Trade)
    (hb : ¬ t.side = some "buy") (hs : ¬ t.side = some "sell")
    (hr : ¬ t.side = some "redeem") : accStep s t = s := by
  unfold accStep
  by_cases hd : isDegenerate t = true
  · rw [if_pos hd]
  · rw [if_neg hd, if_neg hb, if_neg hs, if_neg hr]

/-! ### Non-negativity of tracked shares -/

theorem frontStep_nonneg {m : FrontPos} (hm : ∀ k, 0 ≤ m k) (t : Trade) :
    ∀ k, 0 ≤ frontStep m t k := by
  intro k
  by_cases hd : t.price.getD 0 ≤ 0 ∨ t.amount.getD 0 ≤ 0
  · rw [frontStep_skip m t hd]; exact hm k
  · push_neg at hd
    have hd2 : ¬ (t.price.getD 0 ≤ 0 ∨ t.amount.getD 0 ≤ 0) := by push_neg; exact hd
    have hsh : 0 ≤ t.amount.getD 0 / t.price.getD 0 :=
      le_of_lt (div_pos hd.2 hd.1)
    by_cases hb : t.side = some "buy"
    · rw [frontStep_buy m t hd2 hb]
      show 0 ≤ if k = frontPosKey t then m k + t.amount.getD 0 / t.price.getD 0 else m k
      by_cases hk : k = frontPosKey t
      · rw [if_pos hk]; exact add_nonneg (hm k) hsh
      · rw [if_neg hk]; exact hm k
    · by_cases hs : t.side = some "sell"
      · rw [frontStep_sell m t hd2 hb hs]
        show 0 ≤ if k = frontPosKey t
          then max 0 (m k - t.amount.getD 0 / t.price.getD 0) else m k
        by_cases hk : k = frontPosKey t
        · rw [if_pos hk]; exact le_max_left 0 _
        · rw [if_neg hk]; exact hm k
      · rw [frontStep_other m t hb hs]; exact hm k

theorem frontFold_nonneg : ∀ (l : List Trade) (m : FrontPos), (∀ k, 0 ≤ m k) →
    ∀ k, 0 ≤ l.foldl frontStep m k := by
  intro l
  induction l with
  | nil => intro m hm k; exact hm k
  | cons t rest ih =>
    intro m hm k
    exact ih (frontStep m t) (frontStep_nonneg hm t) k

theorem frontReplaySteps_nonneg (l : List Trade) : ∀ k, 0 ≤ frontReplaySteps l k :=
  frontFold_nonneg l (fun _ => 0) (fun _ => le_refl 0)

theorem not_degenerate_amount_pos {t : Trade} (hd : ¬ isDegenerate t = true) :
    0 < t.amount.getD 0 := by
  by_contra hc
  apply hd
  unfold isDegenerate
  rw [Bool.or_eq_true, decide_eq_true_eq]
  exact Or.inl (not_lt.mp hc)

theorem not_degenerate_price_pos {t : Trade} (hd : ¬ isDegenerate t = true)
    (hside : ¬ t.side = some "redeem") : 0 < t.price.getD 0 := by
  rcases hp : t.price with _ | p
  · exfalso
    apply hd
    unfold isDegenerate
    rw [Bool.or_eq_true, hp]
    right
    rw [decide_eq_true_eq]
    exact hside
  · simp only [hp, Option.getD_some]
    by_contra hc
    apply hd
    unfold isDegenerate
    rw [Bool.or_eq_true, hp]
    right
    rw [decide_eq_true_eq]
    exact not_lt.mp hc

theorem accStep_shares_nonneg {s : AccState} (hs : ∀ k, 0 ≤ (getPos s k).shares)
    (t : Trade) : ∀ k, 0 ≤ (getPos (accStep s t) k).shares := by
  intro k
  by_cases hd : isDegenerate t = true
  · rw [accStep_skip s t hd]; exact hs k
  · by_cases hb : t.side = some "buy"
    · rw [accStep_buy s t hd hb]
      by_cases hk : k = accKey t
      · rw [hk, getPos_setPos_same]
        have hside : ¬ t.side = some "redeem" := by rw [hb]; simp
        exact add_nonneg (hs _) (le_of_lt (div_pos (not_degenerate_amount_pos hd)
          (not_degenerate_price_pos hd hside)))
      · rw [getPos_setPos_ne _ _ _ _ hk]; exact hs k
    · by_cases hsell : t.side = some "sell"
      · rw [accStep_sell s t hd hb hsell]
        by_cases hk : k = accKey t
        · rw [hk]
          show 0 ≤ (getPos (setPos s (accKey t) _) (accKey t)).shares
          rw [getPos_setPos_same]
          have := min_le_right (t.amount.getD 0 / t.price.getD 0)
            (getPos s (accKey t)).shares
          simp only
          linarith
        · show 0 ≤ (getPos (setPos s (accKey t) _) k).shares
          rw [getPos_setPos_ne _ _ _ _ hk]; exact hs k
      · by_cases hr : t.side = some "redeem"
        · rw [accStep_redeem s t hd hr]
          by_cases hk : k = accKey t
          · rw [hk]
            show 0 ≤ (getPos (setPos s (accKey t) ⟨0, 0⟩) (accKey t)).shares
            rw [getPos_setPos_same]
          · show 0 ≤ (getPos (setPos s (accKey t) ⟨0, 0⟩) k).shares
            rw [getPos_setPos_ne _ _ _ _ hk]; exact hs k
        · rw [accStep_other s t hb hsell hr]; exact hs k

theorem accFold_shares_nonneg (l : List Trade) :
    ∀ {s : AccState}, (∀ k, 0 ≤ (getPos s k).shares) →
      ∀ k, 0 ≤ (getPos (l.foldl accStep s) k).shares := by
  induction l with
  | nil => intro s hs k; exact hs k
  | cons t rest ih =>
    intro s hs k
    exact ih (fun k2 => accStep_shares_nonneg hs t k2) k

/-! ### The paged fetch collects an initial segment -/

theorem fetchLoop_eq (all : List Trade) (limit : ℕ) :
    ∀ (fuel page : ℕ) (acc : List Trade), 1 ≤ page →
      fetchLoop all limit fuel page acc =
        acc ++ (all.drop ((page - 1) * limit)).take (fuel * limit) := by
  intro fuel
  induction fuel with
  | zero => intro page acc hpage; simp [fetchLoop]
  | succ fuel ih =>
    intro page acc hpage
    rw [fetchLoop]
    by_cases hshort : (pageSlice all limit page).length < limit
    · rw [if_pos hshort]
      have hdroplen : (all.drop ((page - 1) * limit)).length < limit := by
        unfold pageSlice at hshort
        rw [List.length_take] at hshort
        omega
      have h1 : pageSlice all limit page = all.drop ((page - 1) * limit) := by
        unfold pageSlice
        exact List.take_of_length_le (le_of_lt hdroplen)
      have h2 : (all.drop ((page - 1) * limit)).take ((fuel + 1) * limit) =
          all.drop ((page - 1) * limit) := by
        apply List.take_of_length_le
        calc (all.drop ((page - 1) * limit)).length ≤ limit := le_of_lt hdroplen
          _ ≤ (fuel + 1) * limit := Nat.le_mul_of_pos_left limit (Nat.succ_pos fuel)
      rw [h1, h2]
    · rw [if_neg hshort]
      cases page with
      | zero => omega
      | succ q =>
        rw [ih (q + 1 + 1) _ (by omega)]
        have e1 : pageSlice all limit (q + 1) = (all.drop (q * limit)).take limit := by
          unfold pageSlice
          simp [Nat.succ_sub_one]
        have e2 : (q + 1 + 1 - 1) * limit = limit + q * limit := by
          simp only [Nat.add_sub_cancel]
          ring
        have e3 : (q + 1 - 1) * limit = q * limit := by
          simp [Nat.succ_sub_one]
        rw [e1, e2, e3, List.append_assoc]
        congr 1
        rw [show (fuel + 1) * limit = limit + fuel * limit from by ring, List.take_add]
        congr 1
        rw [List.drop_drop, Nat.add_comm]

theorem fetchAllTrades_take (all : List Trade) :
    fetchAllTrades all = all.take 5000 := by
  unfold fetchAllTrades
  rw [fetchLoop_eq all 100 50 1 [] (by omega)]
  simp

/-! ### Checkpoint monotonicity lemmas -/

theorem cpLe_refl : ∀ cp : Option ℕ, cpLe cp cp := by
  intro cp
  cases cp with
  | none => trivial
  | some a => exact Nat.le_refl a

theorem cpLe_trans : ∀ {a b c : Option ℕ}, cpLe a b → cpLe b c → cpLe a c := by
  intro a b c h1 h2
  cases a with
  | none => trivial
  | some x =>
    cases b with
    | none => exact absurd h1 (by simp [cpLe])
    | some y =>
      cases c with
      | none => exact absurd h2 (by simp [cpLe])
      | some z => exact Nat.le_trans h1 h2

theorem applySync_mono (cp : Option ℕ) (op : SyncOp) : cpLe cp (applySync cp op) := by
  cases op with
  | failure => exact cpLe_refl cp
  | success stream =>
    show cpLe cp (updateCheckpoint cp (fetchSince cp stream))
    cases cp with
    | none => trivial
    | some c =>
      unfold updateCheckpoint
      rcases hmax : (fetchSince (some c) stream).max? with _ | m
      · exact cpLe_refl (some c)
      · have hmem : m ∈ fetchSince (some c) stream := List.max?_mem (by
          intro x y
          exact max_choice x y) hmax
        have : c ≤ m := by
          unfold fetchSince at hmem
          have := List.of_mem_filter hmem
          simpa using this
        exact this

theorem foldSync_mono (ops : List SyncOp) :
    ∀ cp : Option ℕ, cpLe cp (ops.foldl applySync cp) := by
  induction ops with
  | nil => intro cp; exact cpLe_refl cp
  | cons op rest ih =>
    intro cp
    exact cpLe_trans (applySync_mono cp op) (ih (applySync cp op))

/-! ## The claims -/

/-- C10: the position-history computation fetches at most 50 pages of 100
trades each, so its output is derived from at most the first 5000 trades
returned by the trades endpoint; trades beyond the first 5000 are ignored
(`fetchAllTrades` returns exactly the first 5000 records). -/
theorem c10_fetch_at_most_5000 :
    (∀ all : List Trade, fetchAllTrades all = all.take 5000) ∧
    (∀ all : List Trade, (fetchAllTrades all).length ≤ 5000) := by
  refine ⟨fetchAllTrades_take, fun all => ?_⟩
  rw [fetchAllTrades_take]
  simp [List.length_take]

/-- C7: for every wallet the last observed block number in the
SyncCheckpoint is monotonically non-decreasing across checkpoint updates: a
successful sync sets it to the maximum block number seen (never lower than
the stored value), a failed fetch leaves it unchanged, and any sequence of
sync operations never decreases it. -/
theorem c7_checkpoint_monotonic :
    (∀ (cp : Option ℕ) (op : SyncOp), cpLe cp (applySync cp op)) ∧
    (∀ cp : Option ℕ, applySync cp SyncOp.failure = cp) ∧
    (∀ (c : ℕ) (stream : List ℕ) (m : ℕ),
      (fetchSince (some c) stream).max? = some m →
        applySync (some c) (SyncOp.success stream) = some m ∧ c ≤ m) ∧
    (∀ (cp : Option ℕ) (ops : List SyncOp), cpLe cp (ops.foldl applySync cp)) := by
  refine ⟨applySync_mono, fun _ => rfl, ?_, fun cp ops => foldSync_mono ops cp⟩
  intro c stream m hmax
  constructor
  · show updateCheckpoint (some c) (fetchSince (some c) stream) = some m
    unfold updateCheckpoint
    rw [hmax]
  · have hmem : m ∈ fetchSince (some c) stream :=
      List.max?_mem (fun x y => max_choice x y) hmax
    unfold fetchSince at hmem
    have := List.of_mem_filter hmem
    simpa using this

/-- C7 witness: a concrete successful sync from checkpoint 3 over the
stream `[5, 2, 7]` fetches `[5, 7]` and advances the checkpoint to 7. -/
theorem c7_checkpoint_monotonic_witness :
    (fetchSince (some 3) [5, 2, 7]).max? = some 7 ∧
    applySync (some 3) (SyncOp.success [5, 2, 7]) = some 7 ∧ 3 ≤ 7 := by
  have hmax : (fetchSince (some 3) [5, 2, 7]).max? = some 7 := by decide
  have h := (c7_checkpoint_monotonic.2.2.1) 3 [5, 2, 7] 7 hmax
  exact ⟨hmax, h.1, h.2⟩

/-- C3: the tracked shares of every (market, outcome) position are
non-negative after every step of the replay — in the PositionHistory
component (whose sell clamps at zero with `Math.max(0, ...)`) and in the
accountant model alike; selling beyond the tracked position (10 shares
bought, a 15-share-equivalent sell) leaves exactly 0 shares. -/
theorem c3_shares_never_negative :
    (∀ (l : List Trade) (k : String × Option String), 0 ≤ frontReplaySteps l k) ∧
    (∀ (l : List Trade) (k : String × Option String), 0 ≤ frontReplay l k) ∧
    (∀ (l : List Trade) (k : PosKey), 0 ≤ (getPos (accountPositions l) k).shares) ∧
    frontReplay [c3Buy, c3Sell] (frontPosKey c3Buy) = 0 := by
  refine ⟨fun l k => frontReplaySteps_nonneg l k,
    fun l k => frontReplaySteps_nonneg _ k,
    fun l k => accFold_shares_nonneg _ (fun k2 => by simp [getPos]) k, ?_⟩
  have hsort : List.insertionSort tsLe [c3Buy, c3Sell] = [c3Buy, c3Sell] := by
    have h : tsLe c3Buy c3Sell := by decide
    simp [List.insertionSort, List.orderedInsert, h]
  unfold frontReplay frontReplaySteps
  rw [hsort]
  show frontStep (frontStep (fun _ => 0) c3Buy) c3Sell (frontPosKey c3Buy) = 0
  have hkey : frontPosKey c3Sell = frontPosKey c3Buy := by rfl
  have hb : frontStep (fun _ => 0) c3Buy (frontPosKey c3Buy) = 10 := by
    rw [frontStep_buy _ c3Buy (by norm_num [c3Buy]) rfl]
    show (if frontPosKey c3Buy = frontPosKey c3Buy then
      (0 : ℚ) + c3Buy.amount.getD 0 / c3Buy.price.getD 0 else 0) = 10
    rw [if_pos rfl]
    norm_num [c3Buy]
  rw [frontStep_sell _ c3Sell (by norm_num [c3Sell]) (by simp [c3Sell]) rfl]
  show (if frontPosKey c3Buy = frontPosKey c3Sell then
    max 0 (frontStep (fun _ => 0) c3Buy (frontPosKey c3Buy) -
      c3Sell.amount.getD 0 / c3Sell.price.getD 0)
    else frontStep (fun _ => 0) c3Buy (frontPosKey c3Buy)) = 0
  rw [if_pos hkey.symm, hb]
  norm_num [c3Sell]

/-- C4: a trade with `price ≤ 0` or `amount ≤ 0` contributes exactly zero —
both the accountant step and the PositionHistory step leave their state
unchanged (no error is raised; both steps are total functions) — while the
trade record itself stays in the raw trade set consumed by the other
components (the analytics total still counts it). -/
theorem c4_degenerate_ignored (t : Trade)
    (h : t.amount.getD 0 ≤ 0 ∨ ∃ p, t.price = some p ∧ p ≤ 0) :
    (∀ s : AccState, accStep s t = s) ∧
    (∀ m : FrontPos, frontStep m t = m) ∧
    (∀ (res : ResLookup) (l : List Trade),
      (insiderMetricsOf res (t :: l)).total_trades =
        (insiderMetricsOf res l).total_trades + 1) := by
  have hd : isDegenerate t = true := by
    unfold isDegenerate
    rw [Bool.or_eq_true]
    rcases h with h | ⟨p, hp, hple⟩
    · left; exact decide_eq_true h
    · right; rw [hp]; exact decide_eq_true hple
  have hfront : t.price.getD 0 ≤ 0 ∨ t.amount.getD 0 ≤ 0 := by
    rcases h with h | ⟨p, hp, hple⟩
    · right; exact h
    · left; rw [hp]; exact hple
  refine ⟨fun s => accStep_skip s t hd, fun m => frontStep_skip m t hfront, ?_⟩
  intro res l
  simp [insiderMetricsOf]

/-- C4 witness: the concrete degenerate trade `c4Deg` (amount −5) leaves
the empty accountant state and the all-zero share map unchanged and still
counts toward the analytics trade total. -/
theorem c4_degenerate_ignored_witness :
    (c4Deg.amount.getD 0 ≤ 0 ∨ ∃ p, c4Deg.price = some p ∧ p ≤ 0) ∧
    accStep ⟨[], 0⟩ c4Deg = ⟨[], 0⟩ ∧
    frontStep (fun _ => 0) c4Deg = (fun _ => 0) ∧
    (insiderMetricsOf res0 [c4Deg]).total_trades =
      (insiderMetricsOf res0 []).total_trades + 1 := by
  have h : c4Deg.amount.getD 0 ≤ 0 ∨ ∃ p, c4Deg.price = some p ∧ p ≤ 0 :=
    Or.inl (by norm_num [c4Deg])
  have hc := c4_degenerate_ignored c4Deg h
  exact ⟨h, hc.1 _, hc.2.1 _, hc.2.2 res0 []⟩

/-- C1: a non-degenerate `redeem` closes its (market, outcome) position:
realized earnings grow by the redeemed amount minus the position's
remaining cost, and the position's shares reset to 0; in particular a `buy`
of amount 100 at price 0.5 followed by a `redeem` of amount 60 replays to
realized earnings −40 and terminal shares 0. -/
theorem c1_redeem_closes_position (s : AccState) (t : Trade)
    (hside : t.side = some "redeem") (hpr : t.price = none)
    (hamt : 0 < t.amount.getD 0) :
    (accStep s t).earnings = s.earnings + t.amount.getD 0 - (getPos s (accKey t)).cost ∧
    (getPos (accStep s t) (accKey t)).shares = 0 ∧
    (accountPositions [c1Buy, c1Redeem]).earnings = -40 ∧
    (getPos (accountPositions [c1Buy, c1Redeem]) (accKey c1Redeem)).shares = 0 := by
  have hd : ¬ isDegenerate t = true := by
    unfold isDegenerate
    rw [hpr, hside]
    simp [not_le.mpr hamt]
  have hred := accStep_redeem s t hd hside
  refine ⟨by rw [hred], ?_, ?_, ?_⟩
  · rw [hred]
    show (getPos ⟨(setPos s (accKey t) ⟨0, 0⟩).positions, _⟩ (accKey t)).shares = 0
    simp [getPos, setPos, List.find?_cons]
  all_goals {
    have hsort : List.insertionSort tradeLe [c1Buy, c1Redeem] = [c1Buy, c1Redeem] := by
      have h : tradeLe c1Buy c1Redeem := by decide
      simp [List.insertionSort, List.orderedInsert, h]
    have hfold : accountPositions [c1Buy, c1Redeem] =
        accStep (accStep ⟨[], 0⟩ c1Buy) c1Redeem := by
      unfold accountPositions
      rw [hsort]
      rfl
    have hkey : accKey c1Buy = accKey c1Redeem := rfl
    have hstep1 : accStep ⟨[], 0⟩ c1Buy =
        ⟨[(accKey c1Buy, ⟨200, 100⟩)], 0⟩ := by
      rw [accStep_buy ⟨[], 0⟩ c1Buy (by norm_num [isDegenerate, c1Buy]) rfl]
      have hget : getPos ⟨[], 0⟩ (accKey c1Buy) = ⟨0, 0⟩ := by simp [getPos]
      rw [hget]
      show setPos ⟨[], 0⟩ (accKey c1Buy)
        ⟨0 + c1Buy.amount.getD 0 / c1Buy.price.getD 0, 0 + c1Buy.amount.getD 0⟩ = _
      simp only [setPos, List.filter_nil]
      norm_num [c1Buy]
    have hd2 : ¬ isDegenerate c1Redeem = true := by norm_num [isDegenerate, c1Redeem]
    have hstep2 := accStep_redeem ⟨[(accKey c1Buy, ⟨200, 100⟩)], 0⟩ c1Redeem hd2 rfl
    have hget2 : getPos ⟨[(accKey c1Buy, ⟨200, 100⟩)], (0 : ℚ)⟩ (accKey c1Redeem) =
        ⟨200, 100⟩ := by
      rw [← hkey]
      simp [getPos, List.find?_cons]
    rw [hfold, hstep1, hstep2, hget2]
    first
    | (show (0 : ℚ) + c1Redeem.amount.getD 0 - 100 = -40
       norm_num [c1Redeem])
    | (show (getPos ⟨(setPos ⟨[(accKey c1Buy, ⟨200, 100⟩)], 0⟩ (accKey c1Redeem)
          ⟨0, 0⟩).positions, _⟩ (accKey c1Redeem)).shares = 0
       simp [getPos, setPos, List.find?_cons]) }

/-- C1 witness: the theorem applied to the concrete redeem trade
`c1Redeem` against the empty accountant state. -/
theorem c1_redeem_closes_position_witness :
    c1Redeem.side = some "redeem" ∧ c1Redeem.price = none ∧
    (0 < c1Redeem.amount.getD 0) ∧
    ((accStep ⟨[], 0⟩ c1Redeem).earnings =
        (0 : ℚ) + c1Redeem.amount.getD 0 - (getPos ⟨[], 0⟩ (accKey c1Redeem)).cost ∧
      (getPos (accStep ⟨[], 0⟩ c1Redeem) (accKey c1Redeem)).shares = 0 ∧
      (accountPositions [c1Buy, c1Redeem]).earnings = -40 ∧
      (getPos (accountPositions [c1Buy, c1Redeem]) (accKey c1Redeem)).shares = 0) := by
  refine ⟨rfl, rfl, by norm_num [c1Redeem], ?_⟩
  exact c1_redeem_closes_position ⟨[], 0⟩ c1Redeem rfl rfl (by norm_num [c1Redeem])

/-- C2 (amended): provided no two distinct trades share the same
(timestamp, block number, transaction hash) sort key, replaying any
permutation of a trade list through `accountPositions` yields the same
realized earnings and terminal positions, because the replay first sorts by
that key. -/
theorem c2_account_perm_invariant (l1 l2 : List Trade) (hp : l1.Perm l2)
    (hkeys : ∀ a ∈ l1, ∀ b ∈ l1, sortKey a = sortKey b → a = b) :
    accountPositions l1 = accountPositions l2 := by
  have hperm : (List.insertionSort tradeLe l1).Perm (List.insertionSort tradeLe l2) :=
    (List.perm_insertionSort tradeLe l1).trans
      (hp.trans (List.perm_insertionSort tradeLe l2).symm)
  have heq : List.insertionSort tradeLe l1 = List.insertionSort tradeLe l2 := by
    apply sorted_perm_eq hperm (List.sorted_insertionSort tradeLe l1)
      (List.sorted_insertionSort tradeLe l2)
    intro a ha b hb hab hba
    exact hkeys a ((List.perm_insertionSort tradeLe l1).subset ha)
      b ((List.perm_insertionSort tradeLe l1).subset hb)
      (tradeLe_antisymm_key hab hba)
  unfold accountPositions
  rw [heq]

/-- C2 witness: the two orders of the distinct-key trades `c1Redeem` and
`c1Buy` replay to the same accountant state. -/
theorem c2_account_perm_invariant_witness :
    ([c1Redeem, c1Buy] : List Trade).Perm [c1Buy, c1Redeem] ∧
    (∀ a ∈ ([c1Redeem, c1Buy] : List Trade), ∀ b ∈ ([c1Redeem, c1Buy] : List Trade),
      sortKey a = sortKey b → a = b) ∧
    accountPositions [c1Redeem, c1Buy] = accountPositions [c1Buy, c1Redeem] := by
  have hp : ([c1Redeem, c1Buy] : List Trade).Perm [c1Buy, c1Redeem] :=
    List.Perm.swap c1Buy c1Redeem []
  have hkeys : ∀ a ∈ ([c1Redeem, c1Buy] : List Trade),
      ∀ b ∈ ([c1Redeem, c1Buy] : List Trade), sortKey a = sortKey b → a = b := by
    intro a ha b hb hk
    simp only [List.mem_cons, List.mem_singleton, List.not_mem_nil, or_false] at ha hb
    rcases ha with ha | ha <;> rcases hb with hb | hb <;> subst ha <;> subst hb <;>
      simp_all [sortKey, c1Buy, c1Redeem]
  exact ⟨hp, hkeys, c2_account_perm_invariant _ _ hp hkeys⟩

/-- C2 counterexample: a `sell` and a `buy` recorded under the same
timestamp, block number and transaction hash — the stable sort preserves
their input order, and the two input orders replay to different realized
earnings (10 versus 0), so `accountPositions` is not invariant under every
permutation. -/
theorem c2_account_perm_counterexample :
    ([c2SellT, c2BuyT] : List Trade).Perm [c2BuyT, c2SellT] ∧
    accountPositions [c2SellT, c2BuyT] ≠ accountPositions [c2BuyT, c2SellT] := by
  constructor
  · exact List.Perm.swap c2BuyT c2SellT []
  · have hsort1 : List.insertionSort tradeLe [c2SellT, c2BuyT] = [c2SellT, c2BuyT] := by
      have h : tradeLe c2SellT c2BuyT := by decide
      simp [List.insertionSort, List.orderedInsert, h]
    have hsort2 : List.insertionSort tradeLe [c2BuyT, c2SellT] = [c2BuyT, c2SellT] := by
      have h : tradeLe c2BuyT c2SellT := by decide
      simp [List.insertionSort, List.orderedInsert, h]
    have hkey : accKey c2BuyT = accKey c2SellT := rfl
    have hdS : ¬ isDegenerate c2SellT = true := by norm_num [isDegenerate, c2SellT]
    have hdB : ¬ isDegenerate c2BuyT = true := by norm_num [isDegenerate, c2BuyT]
    -- sell first: the sell hits an empty position, so no cost is removed
    have hS1 : accStep ⟨[], 0⟩ c2SellT = ⟨[(accKey c2SellT, ⟨0, 0⟩)], 10⟩ := by
      rw [accStep_sell ⟨[], 0⟩ c2SellT hdS (by simp [c2SellT]) rfl]
      have hget : getPos ⟨[], 0⟩ (accKey c2SellT) = ⟨0, 0⟩ := by simp [getPos]
      rw [hget]
      simp only [setPos, List.filter_nil]
      norm_num [c2SellT]
    have hB2 : accStep ⟨[(accKey c2SellT, ⟨0, 0⟩)], 10⟩ c2BuyT =
        ⟨[(accKey c2SellT, ⟨10, 10⟩)], 10⟩ := by
      rw [accStep_buy _ c2BuyT hdB rfl]
      have hget : getPos ⟨[(accKey c2SellT, ⟨0, 0⟩)], (10 : ℚ)⟩ (accKey c2BuyT) =
          ⟨0, 0⟩ := by
        rw [hkey]
        simp [getPos, List.find?_cons]
      rw [hget]
      simp only [setPos, hkey]
      simp only [List.filter_cons, decide_eq_true_eq]
      norm_num [c2BuyT]
    -- buy first: the sell then removes the full cost basis
    have hB1 : accStep ⟨[], 0⟩ c2BuyT = ⟨[(accKey c2BuyT, ⟨10, 10⟩)], 0⟩ := by
      rw [accStep_buy ⟨[], 0⟩ c2BuyT hdB rfl]
      have hget : getPos ⟨[], 0⟩ (accKey c2BuyT) = ⟨0, 0⟩ := by simp [getPos]
      rw [hget]
      simp only [setPos, List.filter_nil]
      norm_num [c2BuyT]
    have hS2 : accStep ⟨[(accKey c2BuyT, ⟨10, 10⟩)], 0⟩ c2SellT =
        ⟨[(accKey c2BuyT, ⟨0, 0⟩)], 0⟩ := by
      rw [accStep_sell _ c2SellT hdS (by simp [c2SellT]) rfl]
      have hget : getPos ⟨[(accKey c2BuyT, ⟨10, 10⟩)], (0 : ℚ)⟩ (accKey c2SellT) =
          ⟨10, 10⟩ := by
        rw [← hkey]
        simp [getPos, List.find?_cons]
      rw [hget]
      simp only [setPos, ← hkey]
      simp only [List.filter_cons, decide_eq_true_eq]
      norm_num [c2SellT]
    intro heq
    have e1 : accountPositions [c2SellT, c2BuyT] = ⟨[(accKey c2SellT, ⟨10, 10⟩)], 10⟩ := by
      unfold accountPositions
      rw [hsort1]
      show accStep (accStep ⟨[], 0⟩ c2SellT) c2BuyT = _
      rw [hS1, hB2]
    have e2 : accountPositions [c2BuyT, c2SellT] = ⟨[(accKey c2BuyT, ⟨0, 0⟩)], 0⟩ := by
      unfold accountPositions
      rw [hsort2]
      show accStep (accStep ⟨[], 0⟩ c2BuyT) c2SellT = _
      rw [hB1, hS2]
    rw [e1, e2] at heq
    have : (10 : ℚ) = 0 := congrArg AccState.earnings heq
    norm_num at this

/-- C8: `getTradesPage` paginates offset-based over the
chronologically-descending trade set, the frontend default page size is 50,
and `totalCount` is the full trade count independent of the page; on a
120-trade wallet, page 2 with page size 50 returns exactly records 51–100
of the descending order and `totalCount = 120`. -/
theorem c8_trades_page (l : List Trade) (h : l.length = 120) :
    (∀ page pageSize : ℕ, (getTradesPage l page pageSize).2 = l.length) ∧
    fetchTradesDefaultLimit = 50 ∧
    (getTradesPage l 2 50).1.length = 50 ∧
    (∀ i : ℕ, i < 50 → ((getTradesPage l 2 50).1)[i]? = (sortTradesDesc l)[50 + i]?) ∧
    (getTradesPage l 2 50).2 = 120 := by
  have hlen : (sortTradesDesc l).length = l.length :=
    (List.perm_insertionSort tsGe l).length_eq
  refine ⟨fun _ _ => rfl, rfl, ?_, ?_, h⟩
  · show ((((sortTradesDesc l).drop ((2 - 1) * 50)).take 50)).length = 50
    rw [List.length_take, List.length_drop, hlen, h]
    norm_num
  · intro i hi
    show ((((sortTradesDesc l).drop ((2 - 1) * 50)).take 50))[i]? = _
    rw [List.getElem?_take, if_pos hi, List.getElem?_drop]

/-- C8 witness: the theorem applied to a concrete 120-trade list. -/
theorem c8_trades_page_witness :
    (List.replicate 120 sampleTrade).length = 120 ∧
    ((∀ page pageSize : ℕ,
        (getTradesPage (List.replicate 120 sampleTrade) page pageSize).2 =
          (List.replicate 120 sampleTrade).length) ∧
      fetchTradesDefaultLimit = 50 ∧
      (getTradesPage (List.replicate 120 sampleTrade) 2 50).1.length = 50 ∧
      (∀ i : ℕ, i < 50 →
        ((getTradesPage (List.replicate 120 sampleTrade) 2 50).1)[i]? =
          (sortTradesDesc (List.replicate 120 sampleTrade))[50 + i]?) ∧
      (getTradesPage (List.replicate 120 sampleTrade) 2 50).2 = 120) := by
  have h : (List.replicate 120 sampleTrade).length = 120 := by simp
  exact ⟨h, c8_trades_page (List.replicate 120 sampleTrade) h⟩

/-- C9: the category aggregation is sorted descending by trade count with
ties broken by category name ascending, only the top 8 entries of the
internally-computed full aggregation are exposed, and the two categories
tied at count 3 in the concrete scenario appear in name order
(`"A"` before `"B"`). -/
theorem c9_categories_sorted_top8 :
    (∀ l : List Trade, List.Pairwise catLe (categoryStatsAll l)) ∧
    (∀ l : List Trade, topCategories l = (categoryStatsAll l).take 8) ∧
    (∀ l : List Trade, (topCategories l).length ≤ 8) ∧
    categoryStatsAll c9Trades = [⟨"A", 3, 50⟩, ⟨"B", 3, 50⟩] := by
  refine ⟨fun l => List.sorted_insertionSort catLe _, fun _ => rfl, ?_, ?_⟩
  · intro l
    show ((categoryStatsAll l).take 8).length ≤ 8
    rw [List.length_take]
    exact min_le_left 8 _
  · have h1 : categoryNames c9Trades = ["B", "A"] := by rfl
    have h2 : catCount c9Trades "B" = 3 := by rfl
    have h3 : catCount c9Trades "A" = 3 := by rfl
    have h4 : c9Trades.length = 6 := by rfl
    unfold categoryStatsAll
    rw [h1]
    simp only [List.map_cons, List.map_nil, h2, h3, h4]
    have hpct : (100 * ((3 : ℕ) : ℚ) / ((6 : ℕ) : ℚ)) = 50 := by norm_num
    rw [hpct]
    have hnle : ¬ catLe ⟨"B", 3, 50⟩ ⟨"A", 3, 50⟩ := by
      unfold catLe
      simp only [not_or, not_and]
      refine ⟨by omega, fun _ => ?_⟩
      show ¬ strLe "B" "A"
      decide
    have hle : catLe ⟨"A", 3, 50⟩ ⟨"B", 3, 50⟩ := by
      unfold catLe
      right
      exact ⟨rfl, by decide⟩
    simp [List.insertionSort, List.orderedInsert, hnle, hle]

/-- C5: every rate field of the analytics output is null exactly when its
denominator is zero (no division by zero is ever performed, and over `ℚ` no
NaN exists): the win-rate family is null iff there are no resolved trades,
the contrarian win rate is null iff there are no contrarian trades (in
particular whenever there are no resolved trades), and a wallet with zero
trades gets null timezone outputs. -/
theorem c5_rates_null_iff_zero_denominator (res : ResLookup) (l : List Trade)
    (labels : ℤ → Option String) :
    ((insiderMetricsOf res l).win_rate = none ↔
      (insiderMetricsOf res l).resolved_trades = 0) ∧
    ((insiderMetricsOf res l).expected_win_rate = none ↔
      (insiderMetricsOf res l).resolved_trades = 0) ∧
    ((insiderMetricsOf res l).win_rate_edge = none ↔
      (insiderMetricsOf res l).resolved_trades = 0) ∧
    ((insiderMetricsOf res l).avg_hours_before_close = none ↔
      (insiderMetricsOf res l).resolved_trades = 0) ∧
    ((insiderMetricsOf res l).contrarian_win_rate = none ↔
      (insiderMetricsOf res l).contrarian_trades = 0) ∧
    ((insiderMetricsOf res l).resolved_trades = 0 →
      (insiderMetricsOf res l).contrarian_win_rate = none) ∧
    (l = [] →
      (timezoneAnalysisOf labels (histogramOf l)).inferred_utc_offset = none ∧
      (timezoneAnalysisOf labels (histogramOf l)).inferred_timezone = none ∧
      (timezoneAnalysisOf labels (histogramOf l)).activity_center_utc = none) := by
  have hresolved : (insiderMetricsOf res l).resolved_trades =
      (resolvedTradesOf res l).length := rfl
  have hcon : (insiderMetricsOf res l).contrarian_trades =
      ((resolvedTradesOf res l).filter isContrarian).length := rfl
  refine ⟨?_, ?_, ?_, ?_, ?_, ?_, ?_⟩
  · rw [hresolved]
    by_cases hn : (resolvedTradesOf res l).length = 0 <;>
      simp [insiderMetricsOf, hn]
  · rw [hresolved]
    by_cases hn : (resolvedTradesOf res l).length = 0 <;>
      simp [insiderMetricsOf, hn]
  · rw [hresolved]
    by_cases hn : (resolvedTradesOf res l).length = 0 <;>
      simp [insiderMetricsOf, hn]
  · rw [hresolved]
    by_cases hn : (resolvedTradesOf res l).length = 0 <;>
      simp [insiderMetricsOf, hn]
  · rw [hcon]
    by_cases hn : ((resolvedTradesOf res l).filter isContrarian).length = 0 <;>
      simp [insiderMetricsOf, hn]
  · intro hres
    rw [hresolved] at hres
    have : resolvedTradesOf res l = [] := List.length_eq_zero.mp hres
    simp [insiderMetricsOf, this]
  · intro hl
    subst hl
    have hhist : histTotal (histogramOf []) = 0 := by
      unfold histTotal histogramOf
      simp [List.countP, List.countP.go]
    unfold timezoneAnalysisOf
    rw [if_pos hhist]
    exact ⟨rfl, rfl, rfl⟩

/-- C5 witness: the empty wallet — all rate and timezone outputs are null. -/
theorem c5_rates_null_witness :
    (insiderMetricsOf res0 []).win_rate = none ∧
    (insiderMetricsOf res0 []).contrarian_win_rate = none ∧
    (timezoneAnalysisOf labels0 (histogramOf [])).inferred_utc_offset = none ∧
    (timezoneAnalysisOf labels0 (histogramOf [])).inferred_timezone = none ∧
    (timezoneAnalysisOf labels0 (histogramOf [])).activity_center_utc = none := by
  have h := c5_rates_null_iff_zero_denominator res0 [] labels0
  have hres : (insiderMetricsOf res0 []).resolved_trades = 0 := rfl
  have htz := h.2.2.2.2.2.2 rfl
  exact ⟨h.1.mpr hres, h.2.2.2.2.2.1 hres, htz.1, htz.2.1, htz.2.2⟩

/-! ### The circular mean on a histogram concentrated at hours 23, 0, 1 -/

theorem sum_conc {M : Type} [AddCommMonoid M] (f : Fin 24 → M)
    (hf : ∀ k : Fin 24, k ≠ 23 → k ≠ 0 → k ≠ 1 → f k = 0) :
    ∑ k : Fin 24, f k = f 0 + f 1 + f 23 := by
  have hsub : ({0, 1, 23} : Finset (Fin 24)) ⊆ Finset.univ := Finset.subset_univ _
  have hzero : ∀ x ∈ Finset.univ, x ∉ ({0, 1, 23} : Finset (Fin 24)) → f x = 0 := by
    intro x _ hx
    simp only [Finset.mem_insert, Finset.mem_singleton] at hx
    push_neg at hx
    exact hf x hx.2.2 hx.1 hx.2.1
  rw [← Finset.sum_subset hsub hzero]
  have hm1 : (0 : Fin 24) ∉ (insert (1 : Fin 24) {23} : Finset (Fin 24)) := by
    rw [Finset.mem_insert, Finset.mem_singleton]
    push_neg
    exact ⟨by decide, by decide⟩
  have hm2 : (1 : Fin 24) ∉ ({23} : Finset (Fin 24)) := by
    rw [Finset.mem_singleton]
    decide
  rw [show ({0, 1, 23} : Finset (Fin 24)) = insert 0 (insert 1 {23}) from rfl]
  rw [Finset.sum_insert hm1, Finset.sum_insert hm2,
    Finset.sum_singleton, ← add_assoc]

/-- C6: for every histogram concentrated at hours 23, 0 and 1 (with at
least one trade), the circular weighted mean places the activity center
within one hour of hour 0 on the 24-hour circle — and therefore at least
eleven hours away from hour 12. -/
theorem c6_circular_mean_wraparound (hist : Fin 24 → ℕ)
    (hconc : ∀ k : Fin 24, k ≠ 23 → k ≠ 0 → k ≠ 1 → hist k = 0)
    (htot : histTotal hist ≠ 0) :
    activityCenterOf hist = some (activityCenter hist) ∧
    (0 ≤ activityCenter hist ∧ activityCenter hist < 24) ∧
    min (activityCenter hist) (24 - activityCenter hist) ≤ 1 ∧
    11 ≤ |activityCenter hist - 12| := by
  have htot3 : histTotal hist = hist 0 + hist 1 + hist 23 := sum_conc hist hconc
  have e0 : angleOfHour (0 : Fin 24).val = 0 := by
    show angleOfHour 0 = 0
    unfold angleOfHour
    push_cast
    ring
  have e1 : angleOfHour (1 : Fin 24).val = Real.pi / 12 := by
    show angleOfHour 1 = _
    unfold angleOfHour
    push_cast
    ring
  have e23 : angleOfHour (23 : Fin 24).val = 2 * Real.pi - Real.pi / 12 := by
    show angleOfHour 23 = _
    unfold angleOfHour
    push_cast
    ring
  have hS : tzSin hist = ((hist 1 : ℝ) - (hist 23 : ℝ)) * Real.sin (Real.pi / 12) := by
    unfold tzSin
    rw [sum_conc (fun k => (hist k : ℝ) * Real.sin (angleOfHour k.val))
      (fun k h23 h0 h1 => by
        show (hist k : ℝ) * Real.sin (angleOfHour k.val) = 0
        rw [hconc k h23 h0 h1]
        simp)]
    show (hist 0 : ℝ) * Real.sin (angleOfHour (0 : Fin 24).val) +
        (hist 1 : ℝ) * Real.sin (angleOfHour (1 : Fin 24).val) +
        (hist 23 : ℝ) * Real.sin (angleOfHour (23 : Fin 24).val) = _
    rw [e0, e1, e23, Real.sin_zero, Real.sin_sub, Real.sin_two_pi, Real.cos_two_pi]
    ring
  have hC : tzCos hist =
      (hist 0 : ℝ) + ((hist 1 : ℝ) + (hist 23 : ℝ)) * Real.cos (Real.pi / 12) := by
    unfold tzCos
    rw [sum_conc (fun k => (hist k : ℝ) * Real.cos (angleOfHour k.val))
      (fun k h23 h0 h1 => by
        show (hist k : ℝ) * Real.cos (angleOfHour k.val) = 0
        rw [hconc k h23 h0 h1]
        simp)]
    show (hist 0 : ℝ) * Real.cos (angleOfHour (0 : Fin 24).val) +
        (hist 1 : ℝ) * Real.cos (angleOfHour (1 : Fin 24).val) +
        (hist 23 : ℝ) * Real.cos (angleOfHour (23 : Fin 24).val) = _
    rw [e0, e1, e23, Real.cos_zero, Real.cos_sub, Real.sin_two_pi, Real.cos_two_pi]
    ring
  have hsinpos : 0 < Real.sin (Real.pi / 12) :=
    Real.sin_pos_of_pos_of_lt_pi (by positivity) (by linarith [Real.pi_pos])
  have hcospos : 0 < Real.cos (Real.pi / 12) :=
    Real.cos_pos_of_mem_Ioo ⟨by linarith [Real.pi_pos], by linarith [Real.pi_pos]⟩
  have htanpos : 0 < Real.tan (Real.pi / 12) :=
    Real.tan_pos_of_pos_of_lt_pi_div_two (by positivity) (by linarith [Real.pi_pos])
  have hN0 : (0 : ℝ) ≤ (hist 0 : ℝ) := Nat.cast_nonneg _
  have hN1 : (0 : ℝ) ≤ (hist 1 : ℝ) := Nat.cast_nonneg _
  have hN23 : (0 : ℝ) ≤ (hist 23 : ℝ) := Nat.cast_nonneg _
  have hCpos : 0 < tzCos hist := by
    rw [hC]
    have htotpos : 0 < hist 0 + hist 1 + hist 23 :=
      Nat.pos_of_ne_zero (by rw [← htot3]; exact htot)
    rcases Nat.eq_zero_or_pos (hist 0) with hz | hp
    · have h123 : 0 < hist 1 + hist 23 := by omega
      have h123r : (0 : ℝ) < (hist 1 : ℝ) + (hist 23 : ℝ) := by
        have hcast := (Nat.cast_lt (α := ℝ)).mpr h123
        push_cast at hcast
        linarith
      have hprod := mul_pos h123r hcospos
      linarith
    · have hpr : (0 : ℝ) < (hist 0 : ℝ) := by exact_mod_cast hp
      have hprod := mul_nonneg (add_nonneg hN1 hN23) hcospos.le
      linarith
  have habs : |tzSin hist| ≤ tzCos hist * Real.tan (Real.pi / 12) := by
    have key : tzCos hist * Real.tan (Real.pi / 12) =
        (hist 0 : ℝ) * Real.tan (Real.pi / 12) +
          ((hist 1 : ℝ) + (hist 23 : ℝ)) * Real.sin (Real.pi / 12) := by
      rw [hC, Real.tan_eq_sin_div_cos]
      field_simp
      ring
    rw [hS, key, abs_mul, abs_of_pos hsinpos]
    have habs1 : |(hist 1 : ℝ) - (hist 23 : ℝ)| ≤ (hist 1 : ℝ) + (hist 23 : ℝ) := by
      rcases abs_cases ((hist 1 : ℝ) - (hist 23 : ℝ)) with ⟨he, _⟩ | ⟨he, _⟩ <;>
        rw [he] <;> linarith
    have hmul := mul_le_mul_of_nonneg_right habs1 hsinpos.le
    have hn0tan := mul_nonneg hN0 htanpos.le
    linarith
  have hu : |tzSin hist / tzCos hist| ≤ Real.tan (Real.pi / 12) := by
    rw [abs_div, abs_of_pos hCpos, div_le_iff₀ hCpos]
    calc |tzSin hist| ≤ tzCos hist * Real.tan (Real.pi / 12) := habs
      _ = Real.tan (Real.pi / 12) * tzCos hist := mul_comm _ _
  have hthetaeq : meanAngle hist = Real.arctan (tzSin hist / tzCos hist) := by
    unfold meanAngle atan2R
    rw [if_pos hCpos]
  have hpi2a : -(Real.pi / 2) < Real.pi / 12 := by linarith [Real.pi_pos]
  have hpi2b : Real.pi / 12 < Real.pi / 2 := by linarith [Real.pi_pos]
  have htaneq : Real.arctan (Real.tan (Real.pi / 12)) = Real.pi / 12 :=
    Real.arctan_tan hpi2a hpi2b
  have hmono := Real.arctan_strictMono.monotone
  have hth1 : Real.arctan (tzSin hist / tzCos hist) ≤ Real.pi / 12 := by
    calc Real.arctan (tzSin hist / tzCos hist)
        ≤ Real.arctan |tzSin hist / tzCos hist| := hmono (le_abs_self _)
      _ ≤ Real.arctan (Real.tan (Real.pi / 12)) := hmono hu
      _ = Real.pi / 12 := htaneq
  have hth2 : -(Real.pi / 12) ≤ Real.arctan (tzSin hist / tzCos hist) := by
    have hneg : -(Real.tan (Real.pi / 12)) ≤ tzSin hist / tzCos hist := by
      have h1 := neg_abs_le (tzSin hist / tzCos hist)
      linarith
    have := hmono hneg
    rw [Real.arctan_neg, htaneq] at this
    exact this
  have hthabs : |meanAngle hist| ≤ Real.pi / 12 := by
    rw [hthetaeq]
    exact abs_le.mpr ⟨hth2, hth1⟩
  have hc0abs : |meanAngle hist * 12 / Real.pi| ≤ 1 := by
    have hrw : |meanAngle hist * 12 / Real.pi| = |meanAngle hist| * 12 / Real.pi := by
      rw [abs_div, abs_mul, abs_of_pos Real.pi_pos]
      norm_num
    rw [hrw, div_le_one Real.pi_pos]
    linarith [hthabs]
  have hcdef : activityCenter hist = hourMod24 (meanAngle hist * 12 / Real.pi) := rfl
  have hsome : activityCenterOf hist = some (activityCenter hist) := by
    unfold activityCenterOf
    rw [if_neg htot]
  have hmain : (0 ≤ activityCenter hist ∧ activityCenter hist < 24) ∧
      min (activityCenter hist) (24 - activityCenter hist) ≤ 1 ∧
      11 ≤ |activityCenter hist - 12| := by
    set c0 := meanAngle hist * 12 / Real.pi with hc0
    have hc0le : c0 ≤ 1 := le_of_abs_le hc0abs
    have hc0ge : -1 ≤ c0 := neg_le_of_abs_le hc0abs
    rcases le_or_lt 0 c0 with hsign | hsign
    · have hfr : Int.fract (c0 / 24) = c0 / 24 := by
        rw [Int.fract_eq_self]
        constructor
        · positivity
        · rw [div_lt_one (by norm_num : (0:ℝ) < 24)]
          linarith
      have hc_eq : activityCenter hist = c0 := by
        rw [hcdef]
        unfold hourMod24
        rw [hfr]
        ring
      rw [hc_eq]
      refine ⟨⟨hsign, by linarith⟩, ?_, ?_⟩
      · exact le_trans (min_le_left _ _) hc0le
      · rw [abs_of_nonpos (by linarith)]
        linarith
    · have hfloor : ⌊c0 / 24⌋ = -1 := by
        rw [Int.floor_eq_iff]
        constructor
        · push_cast
          rw [le_div_iff₀ (by norm_num : (0:ℝ) < 24)]
          linarith
        · push_cast
          rw [div_lt_iff₀ (by norm_num : (0:ℝ) < 24)]
          linarith
      have hc_eq : activityCenter hist = c0 + 24 := by
        rw [hcdef]
        unfold hourMod24 Int.fract
        rw [hfloor]
        push_cast
        ring
      rw [hc_eq]
      refine ⟨⟨by linarith, by linarith⟩, ?_, ?_⟩
      · refine le_trans (min_le_right _ _) ?_
        linarith
      · rw [abs_of_nonneg (by linarith)]
        linarith
  exact ⟨hsome, hmain.1, hmain.2.1, hmain.2.2⟩

/-- C6 witness: the histogram with one trade in each of the hours 23, 0
and 1. -/
theorem c6_circular_mean_wraparound_witness :
    (∀ k : Fin 24, k ≠ 23 → k ≠ 0 → k ≠ 1 → histW k = 0) ∧
    histTotal histW ≠ 0 ∧
    (activityCenterOf histW = some (activityCenter histW) ∧
      (0 ≤ activityCenter histW ∧ activityCenter histW < 24) ∧
      min (activityCenter histW) (24 - activityCenter histW) ≤ 1 ∧
      11 ≤ |activityCenter histW - 12|) := by
  have h1 : ∀ k : Fin 24, k ≠ 23 → k ≠ 0 → k ≠ 1 → histW k = 0 := by decide
  have h2 : histTotal histW ≠ 0 := by decide
  exact ⟨h1, h2, c6_circular_mean_wraparound histW h1 h2⟩

end Harpoon
